import Mathlib

/-!
Verification development for `source-probe.py`, a C-codebase include/tag
utility analyzer.  The program's text processing (Python `re`), its
recursive transitive-include resolver, its ctags-line parser and its
utility scorer are shallowly embedded below; text is modelled as `List
Char`, Python sets of entities as lists of structures (the program never
relies on set iteration order for the properties treated here), `len`
ratios as exact rationals, and the file system / external `ctags`
process as an explicit environment of total functions.  ASCII character
classes stand in for Python's unicode-aware `\w`/`\s`.
-/

set_option maxRecDepth 10000

abbrev Str := List Char

/-- Python `data.split(sep)` for a one-character separator: consecutive
separators yield empty pieces, and splitting the empty string yields
one empty piece. -/
def splitOnChar (sep : Char) : Str → List Str
  | [] => [[]]
  | c :: rest =>
    let r := splitOnChar sep rest
    if c = sep then [] :: r
    else
      match r with
      | l :: ls => (c :: l) :: ls
      | [] => [[c]]

/-- `re.sub(r'//.*', '', data)`: each line is truncated at its first
`//` (the `.` of the pattern does not match a newline, so the newline
itself survives).  `inComment = true` means the scanner is inside a
line comment, skipping until the end of the line. -/
def stripLineGo : Bool → Str → Str
  | _, [] => []
  | true, c :: rest =>
    if c = '\n' then '\n' :: stripLineGo false rest else stripLineGo true rest
  | false, [c] => [c]
  | false, c :: d :: rest2 =>
    if c = '/' ∧ d = '/' then stripLineGo true rest2
    else c :: stripLineGo false (d :: rest2)

/-- The first regex pass of `Source.read` (`re.sub(r'//.*', '', data)`). -/
def stripLineComments (l : Str) : Str := stripLineGo false l

/-- Whether the text contains the substring `*/`. -/
def hasCloserIn : Str → Bool
  | [] => false
  | c :: rest => (decide (c = '*') && decide (rest.head? = some '/')) || hasCloserIn rest

/-- The suffix of the text strictly after its first `*/` (`[]` if none). -/
def afterCloser : Str → Str
  | [] => []
  | c :: rest =>
    if c = '*' ∧ rest.head? = some '/' then rest.tail else afterCloser rest

/-- `re.sub(r'/\*.*?\*/', '', data, flags=re.DOTALL)` as a scanner.
Mode `true` is "inside a block comment that is guaranteed to close":
the non-greedy pattern ends the comment at the first `*/`.  A `/*`
with no later `*/` matches nothing, so it is emitted verbatim (the
regex engine then resumes the search one character later). -/
def stripBlockGo : Bool → Str → Str
  | _, [] => []
  | true, [_] => []
  | true, c :: d :: rest2 =>
    if c = '*' ∧ d = '/' then stripBlockGo false rest2
    else stripBlockGo true (d :: rest2)
  | false, [c] => [c]
  | false, c :: d :: rest2 =>
    if c = '/' ∧ d = '*' then
      (if hasCloserIn rest2 then stripBlockGo true rest2
       else c :: stripBlockGo false (d :: rest2))
    else c :: stripBlockGo false (d :: rest2)

/-- The second regex pass of `Source.read`. -/
def stripBlockComments (l : Str) : Str := stripBlockGo false l

/-- Whether the text contains a `*/` with no newline strictly before it
(so that `/\*.*?\*/` without `re.DOTALL` can close on this line). -/
def hasCloserLine : Str → Bool
  | [] => false
  | c :: rest =>
    if c = '\n' then false
    else (decide (c = '*') && decide (rest.head? = some '/')) || hasCloserLine rest

/-- `re.sub(r'/\*.*?\*/', '', data, re.DOTALL)` of `Header.read`:
`re.DOTALL` (= 16) lands in the positional `count` argument, so at most
16 block comments are replaced and `.` does not match newlines (a block
comment spanning lines never matches).  `quota` is the number of
replacements still allowed. -/
def stripBlockGoCount : Nat → Bool → Str → Str
  | _, _, [] => []
  | _, true, [_] => []
  | n, true, c :: d :: rest2 =>
    if c = '*' ∧ d = '/' then stripBlockGoCount n false rest2
    else stripBlockGoCount n true (d :: rest2)
  | 0, false, l => l
  | Nat.succ _, false, [c] => [c]
  | Nat.succ n, false, c :: d :: rest2 =>
    if c = '/' ∧ d = '*' then
      (if hasCloserLine rest2 then stripBlockGoCount n true rest2
       else c :: stripBlockGoCount (Nat.succ n) false (d :: rest2))
    else c :: stripBlockGoCount (Nat.succ n) false (d :: rest2)

/-- The first regex pass of `Header.read`. -/
def stripBlockHeader (l : Str) : Str := stripBlockGoCount 16 false l

/-- The comment-stripping step of `Source.read`: line comments first,
then block comments with `flags=re.DOTALL`. -/
def normalizeSource (l : Str) : Str := stripBlockComments (stripLineComments l)

/-- The comment-stripping step of `Header.read`: block comments first
(with the `re.DOTALL`-as-`count` slip), then line comments. -/
def normalizeHeader (l : Str) : Str := stripLineComments (stripBlockHeader l)

/-- Whether the text contains the substring `//` (a line-comment start,
i.e. a match of `//.*`). -/
def hasSS : Str → Bool
  | [] => false
  | c :: rest => (decide (c = '/') && decide (rest.head? = some '/')) || hasSS rest

/-- Whether the text contains a match of `/\*.*?\*/` with `re.DOTALL`:
a `/*` with some `*/` starting at least two characters later. -/
def hasBlockCmt : Str → Bool
  | [] => false
  | c :: rest =>
    (decide (c = '/') && decide (rest.head? = some '*') && hasCloserIn rest.tail)
      || hasBlockCmt rest

/-! ### Include parser

`includes_re = re.compile(r'#include[\s]?["<]+(?P<file>[-\w\.]+)[">]+')`
used by `Source.read` and `Header.read` via `findall` on the normalized
text.  The opener class is `["<]+`, the closer class `[">]+`: the two
delimiters are character classes repeated one or more times, not a
matched pair.  Character classes are modelled at their ASCII core. -/

/-- `["<]`: a character the regex accepts before the filename. -/
def isOpener (c : Char) : Bool := c = '"' || c = '<'

/-- `[">]`: a character the regex accepts after the filename. -/
def isCloser (c : Char) : Bool := c = '"' || c = '>'

/-- `[-\w\.]`: letter, digit, underscore, hyphen or dot (ASCII core). -/
def isFname (c : Char) : Bool := c.isAlphanum || c = '_' || c = '-' || c = '.'

/-- `[\s]`: ASCII whitespace as matched by Python `\s`. -/
def isSpaceCh (c : Char) : Bool :=
  c = ' ' || c = '\t' || c = '\n' || c = '\r' || c = '\x0b' || c = '\x0c'

/-- Greedy `p+`: the maximal nonempty run of `p`-characters at the head,
with the remainder; `none` when the head fails `p` (the regex `+`
requires at least one character). -/
def take1While (p : Char → Bool) (l : Str) : Option (Str × Str) :=
  match l.takeWhile p with
  | [] => none
  | run => some (run, l.dropWhile p)

/-- The `[\s]?` of the pattern: one leading whitespace character is
consumed when present (it is committed: no whitespace character is in
the opener class, so backtracking to the empty option cannot succeed). -/
def skipOptSpace : Str → Str
  | [] => []
  | c :: rest => if isSpaceCh c then rest else c :: rest

/-- Attempt to match `#include[\s]?["<]+([-\w\.]+)[">]+` at the head of
the text.  Returns the captured filename and the remainder after the
match. -/
def tryInclude (l : Str) : Option (Str × Str) :=
  if "#include".data.isPrefixOf l then
    match take1While isOpener (skipOptSpace (l.drop 8)) with
    | none => none
    | some (_, l3) =>
      match take1While isFname l3 with
      | none => none
      | some (f, l4) =>
        match take1While isCloser l4 with
        | none => none
        | some (_, l5) => some (f, l5)
  else none

/-- `findall` scanning: try a match at each position, emit the capture
and resume after the match, otherwise advance one character.  The fuel
is the length of the text; every step consumes at least one character,
so `scanIncludesF l.length l` is the full scan. -/
def scanIncludesF : Nat → Str → List Str
  | 0, _ => []
  | _ + 1, [] => []
  | n + 1, c :: rest =>
    match tryInclude (c :: rest) with
    | some (f, rest') => f :: scanIncludesF n rest'
    | none => scanIncludesF n rest

/-- `includes_re.findall(data)`: the ordered, duplicate-preserving list
of captured filenames. -/
def findIncludes (l : Str) : List Str := scanIncludesF l.length l

/-- A directive of the documented shape starts at the head of the text:
`#include`, at most one whitespace character, one or more opener
characters, a nonempty filename, one or more closer characters. -/
def CanStart (l : Str) : Prop :=
  ∃ ws os f cs rest,
    ws.length ≤ 1 ∧ (∀ c ∈ ws, isSpaceCh c) ∧
    os ≠ [] ∧ (∀ c ∈ os, isOpener c) ∧
    f ≠ [] ∧ (∀ c ∈ f, isFname c) ∧
    cs ≠ [] ∧ (∀ c ∈ cs, isCloser c) ∧
    l = "#include".data ++ ws ++ os ++ f ++ cs ++ rest

/-- Declarative reading of the include extraction: scan left to right;
where a directive starts, record its filename and continue after the
directive (whose trailing closer run is maximal, as the regex `+` is
greedy); elsewhere move on by one character. -/
inductive ScanRel : Str → List Str → Prop where
  | nil : ScanRel [] []
  | found : ∀ ws os f cs rest out,
      ws.length ≤ 1 → (∀ c ∈ ws, isSpaceCh c) →
      os ≠ [] → (∀ c ∈ os, isOpener c) →
      f ≠ [] → (∀ c ∈ f, isFname c) →
      cs ≠ [] → (∀ c ∈ cs, isCloser c) →
      (∀ c, rest.head? = some c → isCloser c = false) →
      ScanRel rest out →
      ScanRel ("#include".data ++ ws ++ os ++ f ++ cs ++ rest) (f :: out)
  | skip : ∀ c rest out, ¬ CanStart (c :: rest) → ScanRel rest out →
      ScanRel (c :: rest) out

/-! ### Transitive include resolver

`Source.find_used_headers(start_lst, start_set)` recursively computes
the headers of `start_set` reachable from the include names
`start_lst`.  Python's recursion carries no explicit bound; the
embedding uses a fuel argument, always called with
`start_set.length + 1`, which dominates the recursion depth because
each recursive call receives the strictly smaller `remaining_set`
(the subset claim below is proved for every fuel value, so no
adequacy assumption enters any theorem). -/

structure HeaderE where
  filename : Str
  include_lst : List Str
  tag_set : Finset Str
deriving DecidableEq

structure SourceE where
  filename : Str
  include_lst : List Str
  tag_set : Finset Str
deriving DecidableEq

/-- Set union `a | b` on entity sets, as an append that keeps one copy. -/
def hunion (a b : List HeaderE) : List HeaderE := a ++ b.filter (fun x => ¬ x ∈ a)

/-- Fueled body of `Source.find_used_headers`: partition the universe
into `used` (named by `start_lst`) and `remaining`; for each used
header with a nonempty include list, resolve recursively against the
current `remaining`, accumulate, and shrink `remaining` by everything
accumulated so far; return `used ∪ parent`. -/
def fuhF : Nat → List Str → List HeaderE → List HeaderE
  | 0, _, _ => []
  | n + 1, start_lst, start_set =>
    let used := start_set.filter (fun h => h.filename ∈ start_lst)
    let step := fun (acc : List HeaderE × List HeaderE) (h : HeaderE) =>
      if h.include_lst = [] then acc
      else
        let p := hunion acc.1 (fuhF n h.include_lst acc.2)
        (p, acc.2.filter (fun x => ¬ x ∈ p))
    let parent := (used.foldl step ([], start_set.filter (fun h => ¬ h.filename ∈ start_lst))).1
    hunion used parent

/-- `Source.find_used_headers(start_lst, start_set)`. -/
def find_used_headers (start_lst : List Str) (start_set : List HeaderE) : List HeaderE :=
  fuhF (start_set.length + 1) start_lst start_set

/-! ### Tag record parser (`Tag.parse_ctag` and `Header.create_tags`)

`parse_ctag` compares the one-character kind field with `is` (object
identity).  Under CPython 3 this is unreliable for strings produced by
`str.split` (verified on CPython 3.11.6: most of the twelve comparisons
are `False`, so the record's kind degrades to the unknown marker and an
error line is printed per tag).  The embedding follows the documented
intent — ordinary value equality — which the specification states is
the behaviour meant, with no difference intended; the divergence is
recorded at the claim about the kind table. -/

inductive TagKind where
  | class_ | define | enumerator | function | file | enum_name
  | member | prototype | struct_tag | typedef | union | var_
  | unknown
deriving DecidableEq

/-- The fixed kind table of `Tag.parse_ctag` (value-equality reading of
the `is` chain); any other field value yields the unknown marker. -/
def kindOf (kind : Str) : TagKind :=
  if kind = "c".data then .class_
  else if kind = "d".data then .define
  else if kind = "e".data then .enumerator
  else if kind = "f".data then .function
  else if kind = "F".data then .file
  else if kind = "g".data then .enum_name
  else if kind = "m".data then .member
  else if kind = "p".data then .prototype
  else if kind = "s".data then .struct_tag
  else if kind = "t".data then .typedef
  else if kind = "u".data then .union
  else if kind = "v".data then .var_
  else .unknown

structure TagRec where
  name : Str
  file : Str
  path : Str
  addr : Str
  kind : TagKind
deriving DecidableEq

/-- `addr.rstrip(';"')`: drop trailing characters from the set. -/
def rstripSemiQuote (l : Str) : Str :=
  (l.reverse.dropWhile (fun c => c = ';' || c = '"')).reverse

/-- `Tag.parse_ctag`: take the first four tab-separated fields; fewer
than four raises `ValueError`, which is caught and reported
(`Unable to parse`) — modelled as `none`.  The `file` field is split on
the path separator `/` into directory prefix and basename; the address
drops its `;"` terminator.  The boolean records whether the
unknown-kind warning (`Unknown kind: ...`) was printed. -/
def parse_ctag (ctag : Str) : Option TagRec × Bool :=
  match splitOnChar '\t' ctag with
  | name :: file :: addr :: kind :: _ =>
    let parts := splitOnChar '/' file
    let k := kindOf kind
    (some { name := name
            file := parts.getLastD []
            path := List.intercalate "/".data parts.dropLast
            addr := rstripSemiQuote addr
            kind := k },
     decide (k = TagKind.unknown))
  | _ => (none, false)

/-- `valid_tag_types` of `Header.create_tags`. -/
def valid_tag_types : List TagKind := [.define, .enumerator, .function, .typedef]

/-- The tag-file lines processed by `Header.create_tags`: split on
newlines, metadata lines starting with `!_` removed. -/
def ctagLines (data : Str) : List Str :=
  (splitOnChar '\n' data).filter (fun d => ¬ "!_".data.isPrefixOf d)

/-- `Header.create_tags` (from the tag-file text to `tag_lst`): for
each nonempty line build a record; keep the names of records whose
kind is a valid tag type. -/
def create_tags (data : Str) : List Str :=
  (ctagLines data).foldl (fun acc ctag =>
    if ctag = [] then acc
    else
      match (parse_ctag ctag).1 with
      | some t => if t.kind ∈ valid_tag_types then acc ++ [t.name] else acc
      | none => acc) []

/-- The successfully parsed records of a tag batch (one `Tag` object is
built per nonempty line; lines that fail to parse yield none). -/
def symbolRecords (data : Str) : List TagRec :=
  ((ctagLines data).filter (fun l => ¬ l = [])).filterMap (fun l => (parse_ctag l).1)

/-- The number of reported parse failures (`Unable to parse` lines) of
a tag batch. -/
def parseFailures (data : Str) : Nat :=
  (((ctagLines data).filter (fun l => ¬ l = [])).filter
    (fun l => (parse_ctag l).1 = none)).length

/-! ### Utility scorer (`Source.utility`, `Header.utility`)

Only the computed rows are modelled (filename, direct/indirect type,
ratio, shared tag set); sorting for display and the `textwrap`
rendering of the tag list are presentation.  Python's float division of
the two small set cardinalities is modelled exactly in `ℚ`; the
`ZeroDivisionError` handler that yields `0` is the zero-denominator
branch. -/

structure UtilEntry where
  filename : Str
  ftype : Str
  utility : ℚ
  tags : Finset Str
deriving DecidableEq

/-- Union of the tag sets of a list of headers. -/
def unionHeaderTags (hs : List HeaderE) : Finset Str :=
  hs.foldl (fun a h => a ∪ h.tag_set) ∅

/-- Union of the tag sets of a list of sources. -/
def unionSourceTags (ss : List SourceE) : Finset Str :=
  ss.foldl (fun a s => a ∪ s.tag_set) ∅

/-- `used_tag_set` of `Source.utility`: tags declared by some used
header and referenced by the source. -/
def SourceE.usedTagSet (self : SourceE) (header_lst : List HeaderE) : Finset Str :=
  unionHeaderTags (find_used_headers self.include_lst header_lst) ∩ self.tag_set

/-- The report rows of `Source.utility` before sorting. -/
def SourceE.utilityEntries (self : SourceE) (header_lst : List HeaderE) : List UtilEntry :=
  let used_header_set := find_used_headers self.include_lst header_lst
  let used_tag_set := self.usedTagSet header_lst
  used_header_set.map (fun h =>
    { filename := h.filename
      ftype := if h.filename ∈ self.include_lst then "direct".data else []
      utility := if used_tag_set.card = 0 then 0
                 else ((h.tag_set ∩ used_tag_set).card : ℚ) / used_tag_set.card
      tags := h.tag_set ∩ used_tag_set })

/-- `Header.find_used_sources`: the sources whose resolved header
closure contains this header (matched by filename). -/
def HeaderE.find_used_sources (self : HeaderE) (header_set : List HeaderE)
    (source_set : List SourceE) : List SourceE :=
  source_set.filter (fun s =>
    (find_used_headers s.include_lst header_set).any
      (fun sh => self.filename = sh.filename))

/-- `used_tag_set` of `Header.utility`. -/
def HeaderE.usedTagSet (self : HeaderE) (header_lst : List HeaderE)
    (source_lst : List SourceE) : Finset Str :=
  unionSourceTags (self.find_used_sources header_lst source_lst) ∩ self.tag_set

/-- The report rows of `Header.utility` before sorting. -/
def HeaderE.utilityEntries (self : HeaderE) (header_lst : List HeaderE)
    (source_lst : List SourceE) : List UtilEntry :=
  let used_source_set := self.find_used_sources header_lst source_lst
  let used_tag_set := self.usedTagSet header_lst source_lst
  used_source_set.map (fun s =>
    { filename := s.filename
      ftype := if self.filename ∈ s.include_lst then "direct".data else []
      utility := if used_tag_set.card = 0 then 0
                 else ((s.tag_set ∩ used_tag_set).card : ℚ) / used_tag_set.card
      tags := s.tag_set ∩ used_tag_set })

/-! ### Identifier extraction for sources and the main flow -/

/-- `re.findall(r'[\W](\w+)[\W]', data)` as a scanner: a word run
counts only when a non-word character precedes it and a non-word
character follows it, and the trailing delimiter is consumed by the
match (so it cannot serve as the leading delimiter of the next one).
`haveDelim` records whether an unconsumed non-word character was just
seen; `run` is the current candidate word. -/
def ftGo : Bool → Str → Str → List Str
  | _, _, [] => []
  | false, _, c :: rest => ftGo (!(c.isAlphanum || c = '_')) [] rest
  | true, run, c :: rest =>
    if c.isAlphanum || c = '_' then ftGo true (run ++ [c]) rest
    else if run = [] then ftGo true [] rest
    else run :: ftGo false [] rest

/-- `tagname_re.findall(self.data)` of `Source.read`. -/
def findTags (l : Str) : List Str := ftGo false [] l

/-- `class RetCode: OK, ERROR, ARGS, WARNING = range(4)`. -/
def RetCode.OK : Nat := 0

def RetCode.ERROR : Nat := 1

def RetCode.ARGS : Nat := 2

def RetCode.WARNING : Nat := 3

/-- The file system and the external `ctags` extractor, abstracted as
total functions: the text of a file, and the text of the tag file the
extractor leaves behind for a header. -/
structure Env where
  readFile : Str → Str
  tagText : Str → Str

/-- `Source(__init__ + read)`: normalized text yields the include list
and the referenced-identifier set. -/
def buildSource (env : Env) (filename : Str) : SourceE :=
  let data := normalizeSource (env.readFile filename)
  { filename := filename
    include_lst := findIncludes data
    tag_set := (findTags data).toFinset }

/-- `Header(__init__ + read + create_tags)`. -/
def buildHeader (env : Env) (filename : Str) : HeaderE :=
  let data := normalizeHeader (env.readFile filename)
  { filename := filename
    include_lst := findIncludes data
    tag_set := (create_tags (env.tagText filename)).toFinset }

/-- Outcome of `main` after the universe has been filtered: either the
fatal early return (no entity is built, no report is produced), or the
reports of the analysis files together with the final return code. -/
inductive MainResult where
  | fatal (ret : Nat)
  | ok (reports : List (Str × List UtilEntry)) (ret : Nat)
deriving DecidableEq

/-- `main` from the point where `h_files` and `c_files` exist: the two
emptiness guards return `RetCode.ERROR`; otherwise every source and
header entity is built, and each analysis file contributes its utility
report, sources first. -/
def mainRun (env : Env) (analysis_lst h_files c_files : List Str) : MainResult :=
  if h_files = [] then .fatal RetCode.ERROR
  else if c_files = [] then .fatal RetCode.ERROR
  else
    let sources := c_files.map (buildSource env)
    let headers := h_files.map (buildHeader env)
    let srcReports := (sources.filter (fun s => s.filename ∈ analysis_lst)).map
      (fun af => (af.filename, af.utilityEntries headers))
    let hdrReports := (headers.filter (fun h => h.filename ∈ analysis_lst)).map
      (fun af => (af.filename, af.utilityEntries headers sources))
    .ok (srcReports ++ hdrReports) RetCode.OK

/-! ### Concrete instances used by counterexamples and witnesses -/

/-- Header `a.h`, whose text includes `b.h`. -/
def hA : HeaderE := { filename := "a.h".data, include_lst := ["b.h".data], tag_set := ∅ }

/-- Header `b.h`, whose text includes `a.h`. -/
def hB : HeaderE := { filename := "b.h".data, include_lst := ["a.h".data], tag_set := ∅ }

/-- Header `s.h`, whose text includes `s.h` itself. -/
def hS : HeaderE := { filename := "s.h".data, include_lst := ["s.h".data], tag_set := ∅ }

/-- Header `b.h` declaring tags `FOO` and `BAR`. -/
def hdrFoo : HeaderE :=
  { filename := "b.h".data, include_lst := [], tag_set := {"FOO".data, "BAR".data} }

/-- Source `a.c`, including `b.h` and referencing `FOO` and `main`. -/
def srcMain : SourceE :=
  { filename := "a.c".data, include_lst := ["b.h".data], tag_set := {"FOO".data, "main".data} }

/-- The single report row of `srcMain` against the universe `[hdrFoo]`. -/
def entryMain : UtilEntry :=
  { filename := "b.h".data, ftype := "direct".data, utility := 1, tags := {"FOO".data} }

/-- The single report row of `hdrFoo` against sources `[srcMain]`. -/
def entryFoo : UtilEntry :=
  { filename := "a.c".data, ftype := "direct".data, utility := 1, tags := {"FOO".data} }


/-! ## Lemmas and claim theorems -/

theorem fuhF_nil (n : Nat) (l : List Str) : fuhF n l [] = [] := by
  cases n <;> simp [fuhF, hunion]

theorem mem_hunion {x : HeaderE} {a b : List HeaderE} :
    x ∈ hunion a b ↔ x ∈ a ∨ x ∈ b := by
  constructor
  · intro hx
    rcases List.mem_append.mp hx with h | h
    · exact Or.inl h
    · exact Or.inr (List.mem_of_mem_filter h)
  · intro hx
    by_cases hxa : x ∈ a
    · exact List.mem_append.mpr (Or.inl hxa)
    · rcases hx with h | h
      · exact absurd h hxa
      · exact List.mem_append.mpr (Or.inr (List.mem_filter.mpr ⟨h, by simpa using hxa⟩))

/-- The resolver's result is drawn from the universe, for every fuel
value (in particular for the fuel the program's call depth realizes). -/
theorem fuhF_subset (n : Nat) :
    ∀ (l : List Str) (s : List HeaderE) (x : HeaderE), x ∈ fuhF n l s → x ∈ s := by
  induction n with
  | zero => intro l s x hx; simp [fuhF] at hx
  | succ n ih =>
    intro l s x hx
    simp only [fuhF] at hx
    rcases mem_hunion.mp hx with h | h
    · exact List.mem_of_mem_filter h
    · -- x came out of the fold's accumulated parent set
      revert h
      have fold_inv : ∀ (hs : List HeaderE) (acc : List HeaderE × List HeaderE),
          (∀ y ∈ acc.1, y ∈ s) → (∀ y ∈ acc.2, y ∈ s) →
          ∀ y ∈ (hs.foldl (fun acc h =>
            if h.include_lst = [] then acc
            else
              let p := hunion acc.1 (fuhF n h.include_lst acc.2)
              (p, acc.2.filter (fun x => ¬ x ∈ p))) acc).1, y ∈ s := by
        intro hs
        induction hs with
        | nil => intro acc h1 _ y hy; exact h1 y hy
        | cons hd tl ihtl =>
          intro acc h1 h2 y hy
          simp only [List.foldl_cons] at hy
          by_cases hinc : hd.include_lst = []
          · rw [if_pos hinc] at hy
            exact ihtl acc h1 h2 y hy
          · rw [if_neg hinc] at hy
            refine ihtl _ ?_ ?_ y hy
            · intro z hz
              rcases mem_hunion.mp hz with h | h
              · exact h1 z h
              · exact h2 z (ih _ _ z h)
            · intro z hz
              exact h2 z (List.mem_of_mem_filter hz)
      intro h
      refine fold_inv _ _ (by intro y hy; simp at hy) ?_ x h
      intro y hy
      exact List.mem_of_mem_filter hy

/-- C2 counterexample: with `a.h` itself a member of the universe
`{a.h, b.h}` and a textual include cycle between the two, resolving
`a.h`'s include list returns both headers — `a.h` is not excluded, so
the result is not `{b.h}` as the claim states. -/
theorem c2_counterexample :
    find_used_headers hA.include_lst [hA, hB] = [hB, hA] ∧
    hA ∈ find_used_headers hA.include_lst [hA, hB] ∧
    ¬ find_used_headers hA.include_lst [hA, hB] = [hB] := by
  refine ⟨by decide, by decide, by decide⟩

/-- C2 amended: under the include cycle `a.h` ↔ `b.h`, resolving
`a.h`'s include list against the universe `{a.h, b.h}` terminates (the
value is reached at recursion depth two and is the same for every
larger fuel) and returns exactly `{b.h, a.h}`; against the universe
`{b.h}` — the query subject not a member — it returns exactly `{b.h}`. -/
theorem c2_cycle_closure (n : Nat) :
    fuhF (n + 2) hA.include_lst [hA, hB] = [hB, hA] ∧
    fuhF (n + 2) hA.include_lst [hB] = [hB] := by
  constructor
  · simp [fuhF, hA, hB, hunion, fuhF_nil]
  · simp [fuhF, hA, hB, hunion, fuhF_nil]

/-- C4 counterexample: a header that is a member of the universe and
reachable from the query's include chain appears in its own resolved
closure — `s.h` includes `s.h`, and resolving `s.h`'s include list
against the universe `{s.h}` returns `{s.h}`. -/
theorem c4_counterexample :
    find_used_headers hS.include_lst [hS] = [hS] ∧
    hS ∈ find_used_headers hS.include_lst [hS] := by
  refine ⟨by decide, by decide⟩

/-- C4 amended: for every include-name list and universe (and every
fuel value, hence for the recursion the program performs), the resolved
set is a subset of the universe; the query file therefore cannot appear
in the result when it is not itself a member of the universe, but a
universe member can appear in its own closure. -/
theorem c4_closure_subset (l : List Str) (s : List HeaderE) (x : HeaderE)
    (hx : x ∈ find_used_headers l s) : x ∈ s :=
  fuhF_subset _ l s x hx

theorem c4_closure_subset_witness : hB ∈ find_used_headers hA.include_lst [hA, hB] ∧ hB ∈ [hA, hB] :=
  ⟨by decide, c4_closure_subset hA.include_lst [hA, hB] hB (by decide)⟩

/-- Every row of `Source.utility` arises from a used header via the
shared-tag formula. -/
theorem sourceEntry_shape (self : SourceE) (hl : List HeaderE) (e : UtilEntry)
    (he : e ∈ self.utilityEntries hl) :
    ∃ h ∈ find_used_headers self.include_lst hl,
      e.filename = h.filename ∧
      e.tags = h.tag_set ∩ self.usedTagSet hl ∧
      e.utility = (if (self.usedTagSet hl).card = 0 then 0
                   else ((h.tag_set ∩ self.usedTagSet hl).card : ℚ) / (self.usedTagSet hl).card) := by
  simp only [SourceE.utilityEntries, List.mem_map] at he
  obtain ⟨h, hh, rfl⟩ := he
  exact ⟨h, hh, rfl, rfl, rfl⟩

/-- Every row of `Header.utility` arises from a used source via the
shared-tag formula. -/
theorem headerEntry_shape (self : HeaderE) (hl : List HeaderE) (sl : List SourceE)
    (e : UtilEntry) (he : e ∈ self.utilityEntries hl sl) :
    ∃ s ∈ self.find_used_sources hl sl,
      e.filename = s.filename ∧
      e.tags = s.tag_set ∩ self.usedTagSet hl sl ∧
      e.utility = (if (self.usedTagSet hl sl).card = 0 then 0
                   else ((s.tag_set ∩ self.usedTagSet hl sl).card : ℚ) / (self.usedTagSet hl sl).card) := by
  simp only [HeaderE.utilityEntries, List.mem_map] at he
  obtain ⟨s, hs, rfl⟩ := he
  exact ⟨s, hs, rfl, rfl, rfl⟩

/-- Bounds for the shared-over-used ratio. -/
theorem ratio_bounds (shared used : Finset Str) (hsub : shared ⊆ used) :
    0 ≤ (if used.card = 0 then (0 : ℚ) else (shared.card : ℚ) / used.card) ∧
    (if used.card = 0 then (0 : ℚ) else (shared.card : ℚ) / used.card) ≤ 1 ∧
    (used = ∅ → (if used.card = 0 then (0 : ℚ) else (shared.card : ℚ) / used.card) = 0) ∧
    (shared = ∅ → (if used.card = 0 then (0 : ℚ) else (shared.card : ℚ) / used.card) = 0) := by
  by_cases hc : used.card = 0
  · simp [hc]
  · have hpos : (0 : ℚ) < used.card := by
      exact_mod_cast Nat.pos_of_ne_zero hc
    refine ⟨?_, ?_, ?_, ?_⟩
    · rw [if_neg hc]
      positivity
    · rw [if_neg hc]
      rw [div_le_one hpos]
      exact_mod_cast Finset.card_le_card hsub
    · intro h
      rw [h] at hc
      simp at hc
    · intro h
      rw [if_neg hc, h]
      simp

/-- C5: every report row of `Source.utility` and of `Header.utility`
carries the ratio `|sharedTagSet| / |usedTagSet|`; it lies in `[0, 1]`,
is exactly `0` when the used tag set is empty (the zero-denominator
policy branch), and exactly `0` when the row's shared tag set is
empty. -/
theorem c5_utility_bounds :
    (∀ (self : SourceE) (hl : List HeaderE) (e : UtilEntry),
      e ∈ self.utilityEntries hl →
      e.utility = (if (self.usedTagSet hl).card = 0 then 0
                   else (e.tags.card : ℚ) / (self.usedTagSet hl).card) ∧
      0 ≤ e.utility ∧ e.utility ≤ 1 ∧
      (self.usedTagSet hl = ∅ → e.utility = 0) ∧
      (e.tags = ∅ → e.utility = 0)) ∧
    (∀ (self : HeaderE) (hl : List HeaderE) (sl : List SourceE) (e : UtilEntry),
      e ∈ self.utilityEntries hl sl →
      e.utility = (if (self.usedTagSet hl sl).card = 0 then 0
                   else (e.tags.card : ℚ) / (self.usedTagSet hl sl).card) ∧
      0 ≤ e.utility ∧ e.utility ≤ 1 ∧
      (self.usedTagSet hl sl = ∅ → e.utility = 0) ∧
      (e.tags = ∅ → e.utility = 0)) := by
  constructor
  · intro self hl e he
    obtain ⟨h, _, _, htags, hutil⟩ := sourceEntry_shape self hl e he
    obtain ⟨b1, b2, b3, b4⟩ := ratio_bounds (h.tag_set ∩ self.usedTagSet hl)
      (self.usedTagSet hl) Finset.inter_subset_right
    rw [htags, hutil]
    exact ⟨rfl, b1, b2, b3, b4⟩
  · intro self hl sl e he
    obtain ⟨s, _, _, htags, hutil⟩ := headerEntry_shape self hl sl e he
    obtain ⟨b1, b2, b3, b4⟩ := ratio_bounds (s.tag_set ∩ self.usedTagSet hl sl)
      (self.usedTagSet hl sl) Finset.inter_subset_right
    rw [htags, hutil]
    exact ⟨rfl, b1, b2, b3, b4⟩

theorem entryMain_mem : entryMain ∈ SourceE.utilityEntries srcMain [hdrFoo] := by
  have h1 : find_used_headers srcMain.include_lst [hdrFoo] = [hdrFoo] := by decide
  have h2 : SourceE.usedTagSet srcMain [hdrFoo] = {"FOO".data} := by decide
  have h3 : hdrFoo.tag_set ∩ ({"FOO".data} : Finset Str) = {"FOO".data} := by decide
  have h4 : ({"FOO".data} : Finset Str).card = 1 := by decide
  simp only [SourceE.utilityEntries, h1, h2, h3, h4, List.map_cons, List.map_nil,
    List.mem_singleton]
  have h5 : hdrFoo.filename ∈ srcMain.include_lst := by decide
  simp only [if_pos h5, entryMain]
  norm_num
  decide

theorem entryFoo_mem : entryFoo ∈ HeaderE.utilityEntries hdrFoo [hdrFoo] [srcMain] := by
  have h1 : HeaderE.find_used_sources hdrFoo [hdrFoo] [srcMain] = [srcMain] := by decide
  have h2 : HeaderE.usedTagSet hdrFoo [hdrFoo] [srcMain] = {"FOO".data} := by decide
  have h3 : srcMain.tag_set ∩ ({"FOO".data} : Finset Str) = {"FOO".data} := by decide
  have h4 : ({"FOO".data} : Finset Str).card = 1 := by decide
  simp only [HeaderE.utilityEntries, h1, h2, h3, h4, List.map_cons, List.map_nil,
    List.mem_singleton]
  have h5 : hdrFoo.filename ∈ srcMain.include_lst := by decide
  simp only [if_pos h5, entryFoo]
  norm_num
  decide

theorem c5_utility_bounds_witness :
    (entryMain.utility = (if (srcMain.usedTagSet [hdrFoo]).card = 0 then 0
                          else (entryMain.tags.card : ℚ) / (srcMain.usedTagSet [hdrFoo]).card) ∧
      0 ≤ entryMain.utility ∧ entryMain.utility ≤ 1 ∧
      (srcMain.usedTagSet [hdrFoo] = ∅ → entryMain.utility = 0) ∧
      (entryMain.tags = ∅ → entryMain.utility = 0)) ∧
    (entryFoo.utility = (if (hdrFoo.usedTagSet [hdrFoo] [srcMain]).card = 0 then 0
                         else (entryFoo.tags.card : ℚ) / (hdrFoo.usedTagSet [hdrFoo] [srcMain]).card) ∧
      0 ≤ entryFoo.utility ∧ entryFoo.utility ≤ 1 ∧
      (hdrFoo.usedTagSet [hdrFoo] [srcMain] = ∅ → entryFoo.utility = 0) ∧
      (entryFoo.tags = ∅ → entryFoo.utility = 0)) :=
  ⟨c5_utility_bounds.1 srcMain [hdrFoo] entryMain entryMain_mem,
   c5_utility_bounds.2 hdrFoo [hdrFoo] [srcMain] entryFoo entryFoo_mem⟩

/-- C10: the shared tag set of every report row is contained both in the
subject's identifier set and in the identifier set of the counterpart
the row names. -/
theorem c10_shared_tags_subset :
    (∀ (self : SourceE) (hl : List HeaderE) (e : UtilEntry),
      e ∈ self.utilityEntries hl →
      e.tags ⊆ self.tag_set ∧
      ∃ h ∈ find_used_headers self.include_lst hl,
        h.filename = e.filename ∧ e.tags ⊆ h.tag_set) ∧
    (∀ (self : HeaderE) (hl : List HeaderE) (sl : List SourceE) (e : UtilEntry),
      e ∈ self.utilityEntries hl sl →
      e.tags ⊆ self.tag_set ∧
      ∃ s ∈ self.find_used_sources hl sl,
        s.filename = e.filename ∧ e.tags ⊆ s.tag_set) := by
  constructor
  · intro self hl e he
    obtain ⟨h, hmem, hfn, htags, _⟩ := sourceEntry_shape self hl e he
    refine ⟨?_, h, hmem, hfn.symm, ?_⟩
    · rw [htags]
      exact Finset.inter_subset_right.trans
        (by simp only [SourceE.usedTagSet]; exact Finset.inter_subset_right)
    · rw [htags]
      exact Finset.inter_subset_left
  · intro self hl sl e he
    obtain ⟨s, hmem, hfn, htags, _⟩ := headerEntry_shape self hl sl e he
    refine ⟨?_, s, hmem, hfn.symm, ?_⟩
    · rw [htags]
      exact Finset.inter_subset_right.trans
        (by simp only [HeaderE.usedTagSet]; exact Finset.inter_subset_right)
    · rw [htags]
      exact Finset.inter_subset_left

theorem c10_shared_tags_subset_witness :
    (entryMain.tags ⊆ srcMain.tag_set ∧
      ∃ h ∈ find_used_headers srcMain.include_lst [hdrFoo],
        h.filename = entryMain.filename ∧ entryMain.tags ⊆ h.tag_set) ∧
    (entryFoo.tags ⊆ hdrFoo.tag_set ∧
      ∃ s ∈ hdrFoo.find_used_sources [hdrFoo] [srcMain],
        s.filename = entryFoo.filename ∧ entryFoo.tags ⊆ s.tag_set) :=
  ⟨c10_shared_tags_subset.1 srcMain [hdrFoo] entryMain entryMain_mem,
   c10_shared_tags_subset.2 hdrFoo [hdrFoo] [srcMain] entryFoo entryFoo_mem⟩

/-- Names kept by `create_tags` come from lines that parsed into a
record of a valid tag kind. -/
theorem create_tags_mem (data : Str) (n : Str) (hn : n ∈ create_tags data) :
    ∃ ctag t, ctag ∈ ctagLines data ∧ (parse_ctag ctag).1 = some t ∧
      t.name = n ∧ t.kind ∈ valid_tag_types := by
  unfold create_tags at hn
  suffices h : ∀ (ls : List Str) (acc : List Str),
      n ∈ ls.foldl (fun acc ctag =>
        if ctag = [] then acc
        else
          match (parse_ctag ctag).1 with
          | some t => if t.kind ∈ valid_tag_types then acc ++ [t.name] else acc
          | none => acc) acc →
      n ∈ acc ∨ ∃ ctag t, ctag ∈ ls ∧ (parse_ctag ctag).1 = some t ∧
        t.name = n ∧ t.kind ∈ valid_tag_types by
    rcases h (ctagLines data) [] hn with h' | ⟨ctag, t, hm, h2, h3, h4⟩
    · simp at h'
    · exact ⟨ctag, t, hm, h2, h3, h4⟩
  intro ls
  induction ls with
  | nil => intro acc h; exact Or.inl h
  | cons hd tl ih =>
    intro acc h
    simp only [List.foldl_cons] at h
    rcases ih _ h with h' | ⟨ctag, t, hm, h2, h3, h4⟩
    · by_cases he : hd = []
      · rw [if_pos he] at h'
        exact Or.inl h'
      · rw [if_neg he] at h'
        rcases hp : (parse_ctag hd).1 with _ | t
        · rw [hp] at h'
          exact Or.inl h'
        · rw [hp] at h'
          have h0 : n ∈ (if t.kind ∈ valid_tag_types then acc ++ [t.name] else acc) := h'
          by_cases hv : t.kind ∈ valid_tag_types
          · rw [if_pos hv] at h0
            rcases List.mem_append.mp h0 with h'' | h''
            · exact Or.inl h''
            · refine Or.inr ⟨hd, t, List.mem_cons_self hd tl, hp, ?_, hv⟩
              exact (List.mem_singleton.mp h'').symm
          · rw [if_neg hv] at h0
            exact Or.inl h0
    · exact Or.inr ⟨ctag, t, List.mem_cons_of_mem _ hm, h2, h3, h4⟩

/-- C6: under the documented value-equality intent of the kind
dispatch, the table maps the twelve kind characters as specified, any
other kind field yields the unknown kind together with the reported
warning, the run is not aborted (the parser is total), and no
unknown-kind record contributes a name to a header's identifier set:
every kept name comes from a record whose kind is one of define,
enumerator, function, typedef. -/
theorem c6_kind_table :
    (kindOf "c".data = .class_ ∧ kindOf "d".data = .define ∧
     kindOf "e".data = .enumerator ∧ kindOf "f".data = .function ∧
     kindOf "F".data = .file ∧ kindOf "g".data = .enum_name ∧
     kindOf "m".data = .member ∧ kindOf "p".data = .prototype ∧
     kindOf "s".data = .struct_tag ∧ kindOf "t".data = .typedef ∧
     kindOf "u".data = .union ∧ kindOf "v".data = .var_) ∧
    (∀ k : Str, k ∉ ["c".data, "d".data, "e".data, "f".data, "F".data, "g".data,
        "m".data, "p".data, "s".data, "t".data, "u".data, "v".data] →
      kindOf k = .unknown) ∧
    (∀ ctag t, (parse_ctag ctag).1 = some t → t.kind = .unknown →
      (parse_ctag ctag).2 = true) ∧
    TagKind.unknown ∉ valid_tag_types ∧
    (∀ data n, n ∈ create_tags data →
      ∃ ctag t, ctag ∈ ctagLines data ∧ (parse_ctag ctag).1 = some t ∧
        t.name = n ∧ t.kind ∈ valid_tag_types) := by
  refine ⟨by decide, ?_, ?_, by decide, fun data n hn => create_tags_mem data n hn⟩
  · intro k hk
    have n1 : ¬ k = "c".data := fun h => hk (by rw [h]; decide)
    have n2 : ¬ k = "d".data := fun h => hk (by rw [h]; decide)
    have n3 : ¬ k = "e".data := fun h => hk (by rw [h]; decide)
    have n4 : ¬ k = "f".data := fun h => hk (by rw [h]; decide)
    have n5 : ¬ k = "F".data := fun h => hk (by rw [h]; decide)
    have n6 : ¬ k = "g".data := fun h => hk (by rw [h]; decide)
    have n7 : ¬ k = "m".data := fun h => hk (by rw [h]; decide)
    have n8 : ¬ k = "p".data := fun h => hk (by rw [h]; decide)
    have n9 : ¬ k = "s".data := fun h => hk (by rw [h]; decide)
    have n10 : ¬ k = "t".data := fun h => hk (by rw [h]; decide)
    have n11 : ¬ k = "u".data := fun h => hk (by rw [h]; decide)
    have n12 : ¬ k = "v".data := fun h => hk (by rw [h]; decide)
    simp only [kindOf, if_neg n1, if_neg n2, if_neg n3, if_neg n4, if_neg n5, if_neg n6,
      if_neg n7, if_neg n8, if_neg n9, if_neg n10, if_neg n11, if_neg n12]
  · intro ctag t h1 h2
    unfold parse_ctag at h1 ⊢
    rcases hs : splitOnChar '\t' ctag with _ | ⟨a, _ | ⟨b, _ | ⟨c0, _ | ⟨d, rest⟩⟩⟩⟩ <;>
        rw [hs] at h1 <;>
      first
        | exact Option.noConfusion h1
        | · have h1' : ({ name := a,
                          file := (splitOnChar '/' b).getLastD [],
                          path := List.intercalate "/".data (splitOnChar '/' b).dropLast,
                          addr := rstripSemiQuote c0,
                          kind := kindOf d } : TagRec) = t :=
              Option.some.inj h1
            show decide (kindOf d = TagKind.unknown) = true
            rw [← h1'] at h2
            exact decide_eq_true h2

theorem c6_kind_table_witness :
    kindOf "x".data = .unknown ∧
    (parse_ctag "q\ty.h\t7;\"\tx".data).2 = true ∧
    TagKind.unknown ∉ valid_tag_types :=
  ⟨c6_kind_table.2.1 "x".data (by decide),
   c6_kind_table.2.2.1 "q\ty.h\t7;\"\tx".data
     { name := "q".data, file := "y.h".data, path := [], addr := "7".data,
       kind := TagKind.unknown } (by decide) (by decide),
   c6_kind_table.2.2.2.1⟩

/-- C7: a tag line with fewer than four tab-separated fields fails to
parse (the `ValueError` is caught, reported, and yields no record), and
a batch of one well-formed line and one two-field line produces exactly
one symbol record and one reported parse failure — the parser and the
batch loop are total functions, so no crash is possible. -/
theorem c7_malformed_resilience :
    (∀ ctag : Str, (splitOnChar '\t' ctag).length < 4 → (parse_ctag ctag).1 = none) ∧
    symbolRecords "main\tsrc/main.c\t10;\"\tf\na\tb".data
      = [{ name := "main".data, file := "main.c".data, path := "src".data,
           addr := "10".data, kind := TagKind.function }] ∧
    parseFailures "main\tsrc/main.c\t10;\"\tf\na\tb".data = 1 := by
  refine ⟨?_, by decide, by decide⟩
  intro ctag h
  unfold parse_ctag
  rcases hs : splitOnChar '\t' ctag with _ | ⟨a, _ | ⟨b, _ | ⟨c0, _ | ⟨d, rest⟩⟩⟩⟩ <;>
    first
      | rfl
      | (rw [hs] at h; simp at h; omega)

theorem c7_malformed_resilience_witness :
    (splitOnChar '\t' "a\tb".data).length < 4 ∧ (parse_ctag "a\tb".data).1 = none :=
  ⟨by decide, c7_malformed_resilience.1 "a\tb".data (by decide)⟩

/-- C8: after the universe has been filtered, `main` returns the
distinct non-zero status `RetCode.ERROR` exactly when there are no
header files or no source files — the fatal result carries no report
and is produced before any entity is built — and this is the only
fatal outcome: with both lists nonempty the run produces its reports
and the `RetCode.OK` status. -/
theorem c8_empty_universe_fatal :
    (∀ (env : Env) (a h c : List Str) (r : Nat),
      mainRun env a h c = MainResult.fatal r ↔ (r = RetCode.ERROR ∧ (h = [] ∨ c = []))) ∧
    RetCode.ERROR ≠ RetCode.OK ∧ 0 < RetCode.ERROR ∧
    RetCode.ERROR ≠ RetCode.ARGS ∧ RetCode.ERROR ≠ RetCode.WARNING := by
  refine ⟨?_, by decide, by decide, by decide, by decide⟩
  intro env a h c r
  unfold mainRun
  split_ifs with h1 h2
  · constructor
    · intro hx
      cases hx
      exact ⟨rfl, Or.inl h1⟩
    · intro ⟨hr, _⟩
      rw [hr]
  · constructor
    · intro hx
      cases hx
      exact ⟨rfl, Or.inr h2⟩
    · intro ⟨hr, _⟩
      rw [hr]
  · constructor
    · intro hx
      cases hx
    · intro ⟨_, hor⟩
      rcases hor with h' | h'
      · exact absurd h' h1
      · exact absurd h' h2

theorem stripLineGo_length : ∀ (b : Bool) (l : Str), (stripLineGo b l).length ≤ l.length
  | _, [] => by simp [stripLineGo]
  | true, c :: rest => by
    have h1 := stripLineGo_length false rest
    have h2 := stripLineGo_length true rest
    by_cases h : c = '\n' <;> simp [stripLineGo, h] <;> omega
  | false, [c] => by simp [stripLineGo]
  | false, c :: d :: rest2 => by
    have h1 := stripLineGo_length true rest2
    have h2 := stripLineGo_length false (d :: rest2)
    by_cases h : c = '/' ∧ d = '/' <;> simp [stripLineGo, h] <;> simp at h2 <;> omega

theorem stripBlockGo_length : ∀ (b : Bool) (l : Str), (stripBlockGo b l).length ≤ l.length
  | _, [] => by simp [stripBlockGo]
  | true, [_] => by simp [stripBlockGo]
  | true, c :: d :: rest2 => by
    have h1 := stripBlockGo_length false rest2
    have h2 := stripBlockGo_length true (d :: rest2)
    by_cases h : c = '*' ∧ d = '/' <;> simp [stripBlockGo, h] <;> simp at h2 <;> omega
  | false, [c] => by simp [stripBlockGo]
  | false, c :: d :: rest2 => by
    have h1 := stripBlockGo_length true rest2
    by_cases h : c = '/' ∧ d = '*'
    · obtain ⟨rfl, rfl⟩ := h
      have h2 := stripBlockGo_length false ('*' :: rest2)
      simp only [List.length_cons] at h1 h2 ⊢
      by_cases hc : hasCloserIn rest2 <;> simp [stripBlockGo, hc] <;> omega
    · have h2 := stripBlockGo_length false (d :: rest2)
      simp only [List.length_cons] at h1 h2 ⊢
      simp [stripBlockGo, h]
      omega

theorem stripBlockGoCount_length :
    ∀ (n : Nat) (b : Bool) (l : Str), (stripBlockGoCount n b l).length ≤ l.length
  | _, _, [] => by simp [stripBlockGoCount]
  | _, true, [_] => by simp [stripBlockGoCount]
  | n, true, c :: d :: rest2 => by
    have h1 := stripBlockGoCount_length n false rest2
    have h2 := stripBlockGoCount_length n true (d :: rest2)
    by_cases h : c = '*' ∧ d = '/' <;> simp [stripBlockGoCount, h] <;> simp at h2 <;> omega
  | 0, false, l => by cases l <;> simp [stripBlockGoCount]
  | Nat.succ _, false, [c] => by simp [stripBlockGoCount]
  | Nat.succ n, false, c :: d :: rest2 => by
    have h1 := stripBlockGoCount_length n true rest2
    by_cases h : c = '/' ∧ d = '*'
    · obtain ⟨rfl, rfl⟩ := h
      have h2 := stripBlockGoCount_length (Nat.succ n) false ('*' :: rest2)
      simp only [List.length_cons, Nat.succ_eq_add_one] at h1 h2 ⊢
      by_cases hc : hasCloserLine rest2 <;> simp [stripBlockGoCount, hc] <;> omega
    · have h2 := stripBlockGoCount_length (Nat.succ n) false (d :: rest2)
      simp only [List.length_cons, Nat.succ_eq_add_one] at h1 h2 ⊢
      simp [stripBlockGoCount, h]
      omega

theorem hasSS_tail {c : Char} {l : Str} (h : hasSS (c :: l) = false) : hasSS l = false := by
  simp only [hasSS, Bool.or_eq_false_iff] at h
  exact h.2

theorem hasSS_append : ∀ (a b : Str), hasSS (a ++ b) = false → hasSS b = false
  | [], _ => fun h => h
  | _ :: a', b => fun h => hasSS_append a' b (hasSS_tail h)

theorem hasSS_suffix {l1 l2 : Str} (hs : l1 <:+ l2) (h : hasSS l2 = false) :
    hasSS l1 = false := by
  obtain ⟨t, rfl⟩ := hs
  exact hasSS_append t l1 h

/-- The output of line-comment skipping never starts with `/`: the
first character it can emit is the newline ending the comment. -/
theorem stripLineGo_true_head : ∀ l : Str, ¬ (stripLineGo true l).head? = some '/'
  | [] => by simp [stripLineGo]
  | c :: rest => by
    by_cases h : c = '\n'
    · simp [stripLineGo, h]
    · simpa [stripLineGo, h] using stripLineGo_true_head rest

theorem stripLineGo_false_head (c : Char) (rest : Str) (hc : ¬ c = '/') :
    (stripLineGo false (c :: rest)).head? = some c := by
  cases rest with
  | nil => simp [stripLineGo]
  | cons d rest2 =>
    have : ¬ (c = '/' ∧ d = '/') := fun h => hc h.1
    simp [stripLineGo, this]

/-- No `//` survives the line-comment pass. -/
theorem stripLineGo_noSS : ∀ (b : Bool) (l : Str), hasSS (stripLineGo b l) = false
  | _, [] => by simp [stripLineGo, hasSS]
  | true, c :: rest => by
    by_cases h : c = '\n'
    · have h1 := stripLineGo_noSS false rest
      simp [stripLineGo, h, hasSS, h1]
    · simpa [stripLineGo, h] using stripLineGo_noSS true rest
  | false, [c] => by simp [stripLineGo, hasSS]
  | false, c :: d :: rest2 => by
    by_cases h : c = '/' ∧ d = '/'
    · simpa [stripLineGo, h] using stripLineGo_noSS true rest2
    · have h1 := stripLineGo_noSS false (d :: rest2)
      have hstep : stripLineGo false (c :: d :: rest2) = c :: stripLineGo false (d :: rest2) := by
        simp [stripLineGo, if_neg h]
      rw [hstep]
      simp only [hasSS, Bool.or_eq_false_iff]
      refine ⟨?_, h1⟩
      by_cases hc : c = '/'
      · have hd : ¬ d = '/' := fun hd' => h ⟨hc, hd'⟩
        rw [stripLineGo_false_head d rest2 hd]
        simp [hc, hd]
      · simp [hc]

theorem hasCloserIn_tail {c : Char} {l : Str} (h : hasCloserIn (c :: l) = false) :
    hasCloserIn l = false := by
  simp only [hasCloserIn, Bool.or_eq_false_iff] at h
  exact h.2

theorem hasBlockCmt_tail {c : Char} {l : Str} (h : hasBlockCmt (c :: l) = false) :
    hasBlockCmt l = false := by
  simp only [hasBlockCmt, Bool.or_eq_false_iff] at h
  exact h.2

theorem afterCloser_suffix : ∀ l : Str, afterCloser l <:+ l
  | [] => List.suffix_refl []
  | c :: rest => by
    by_cases h : c = '*' ∧ rest.head? = some '/'
    · simp only [afterCloser, if_pos h]
      exact (List.tail_suffix rest).trans (List.suffix_cons c rest)
    · simp only [afterCloser, if_neg h]
      exact (afterCloser_suffix rest).trans (List.suffix_cons c rest)

theorem hasCloserIn_cons {c : Char} {l : Str} (h : hasCloserIn (c :: l) = true)
    (hne : ¬ (c = '*' ∧ l.head? = some '/')) : hasCloserIn l = true := by
  have h0 : ((decide (c = '*') && decide (l.head? = some '/')) || hasCloserIn l) = true := h
  simp only [Bool.or_eq_true, Bool.and_eq_true, decide_eq_true_eq] at h0
  rcases h0 with h' | h'
  · exact absurd h' hne
  · exact h'

theorem afterCloser_length : ∀ l : Str, hasCloserIn l = true → (afterCloser l).length < l.length
  | [] => by simp [hasCloserIn]
  | c :: rest => by
    intro h
    by_cases hcd : c = '*' ∧ rest.head? = some '/'
    · simp only [afterCloser, if_pos hcd]
      cases rest with
      | nil => simp at hcd
      | cons r rest' =>
        simp only [List.tail_cons, List.length_cons]
        omega
    · simp only [afterCloser, if_neg hcd]
      have := afterCloser_length rest (hasCloserIn_cons h hcd)
      simp only [List.length_cons]
      omega

/-- Inside a block comment that closes, the scanner resumes in copy
mode right after the first `*/`. -/
theorem stripBlockGo_true_eq : ∀ l : Str, hasCloserIn l = true →
    stripBlockGo true l = stripBlockGo false (afterCloser l)
  | [] => by simp [hasCloserIn]
  | [x] => by simp [hasCloserIn]
  | c :: d :: rest2 => by
    intro h
    by_cases hcd : c = '*' ∧ d = '/'
    · have hc' : c = '*' ∧ (d :: rest2).head? = some '/' := by
        simp [hcd.1, hcd.2]
      simp only [stripBlockGo, if_pos hcd, afterCloser, if_pos hc', List.tail_cons]
    · have hc' : ¬ (c = '*' ∧ (d :: rest2).head? = some '/') := by
        intro h'
        exact hcd ⟨h'.1, by simpa using h'.2⟩
      have hr : hasCloserIn (d :: rest2) = true := hasCloserIn_cons h hc'
      simp only [stripBlockGo, if_neg hcd, afterCloser, if_neg hc']
      exact stripBlockGo_true_eq (d :: rest2) hr

/-- Where no `*/` exists at all, the block pass copies the text. -/
theorem stripBlockGo_nocloser_id : ∀ l : Str, hasCloserIn l = false →
    stripBlockGo false l = l
  | [] => by simp [stripBlockGo]
  | [c] => by simp [stripBlockGo]
  | c :: d :: rest2 => by
    intro h
    have hd : hasCloserIn (d :: rest2) = false := hasCloserIn_tail h
    have h2 : hasCloserIn rest2 = false := hasCloserIn_tail hd
    by_cases hcd : c = '/' ∧ d = '*'
    · simp only [stripBlockGo, if_pos hcd, h2, Bool.false_eq_true, if_neg (by simp : ¬ False)]
      rw [stripBlockGo_nocloser_id (d :: rest2) hd]
    · simp only [stripBlockGo, if_neg hcd]
      rw [stripBlockGo_nocloser_id (d :: rest2) hd]

theorem sbGo_false_cons_ne (d : Char) (rest : Str) (hd : ¬ d = '/') :
    stripBlockGo false (d :: rest) = d :: stripBlockGo false rest := by
  cases rest with
  | nil => simp [stripBlockGo]
  | cons e rest2 =>
    have : ¬ (d = '/' ∧ e = '*') := fun h => hd h.1
    simp [stripBlockGo, this]

theorem hasSS_cons_elim {c d : Char} {rest2 : Str}
    (h : hasSS (c :: d :: rest2) = false) (hc : c = '/') : ¬ d = '/' := by
  intro hd
  have h0 : ((decide (c = '/') && decide ((d :: rest2).head? = some '/'))
      || hasSS (d :: rest2)) = false := h
  rw [hc, hd] at h0
  simp at h0

theorem noCloser_noBlock : ∀ l : Str, hasCloserIn l = false → hasBlockCmt l = false
  | [] => by simp [hasBlockCmt]
  | c :: rest => by
    intro h
    have ht : hasCloserIn rest = false := hasCloserIn_tail h
    have htt : hasCloserIn rest.tail = false := by
      cases rest with
      | nil => simp [hasCloserIn]
      | cons r rest' => exact hasCloserIn_tail ht
    show ((decide (c = '/') && decide (rest.head? = some '*') && hasCloserIn rest.tail)
        || hasBlockCmt rest) = false
    rw [htt, noCloser_noBlock rest ht]
    simp

theorem hasCloserIn_cons2 (c d : Char) (r : Str) :
    hasCloserIn (c :: d :: r) = ((decide (c = '*') && decide (d = '/')) || hasCloserIn (d :: r)) := by
  show ((decide (c = '*') && decide ((d :: r).head? = some '/')) || hasCloserIn (d :: r)) = _
  simp

theorem hasBlockCmt_cons2 (c d : Char) (r : Str) :
    hasBlockCmt (c :: d :: r)
      = ((decide (c = '/') && decide (d = '*') && hasCloserIn r) || hasBlockCmt (d :: r)) := by
  show ((decide (c = '/') && decide ((d :: r).head? = some '*') && hasCloserIn (d :: r).tail)
      || hasBlockCmt (d :: r)) = _
  simp

/-- The block pass cannot create a line comment: on `//`-free input its
output is `//`-free. -/
theorem stripBlockGo_noSS : ∀ l : Str, hasSS l = false → hasSS (stripBlockGo false l) = false
  | [] => by intro _; simp [stripBlockGo, hasSS]
  | [c] => by intro _; simp [stripBlockGo, hasSS]
  | c :: d :: rest2 => by
    intro h
    have hss : hasSS (d :: rest2) = false := hasSS_tail h
    by_cases hcd : c = '/' ∧ d = '*'
    · by_cases hc : hasCloserIn rest2
      · have heq : stripBlockGo false (c :: d :: rest2) = stripBlockGo false (afterCloser rest2) := by
          simp only [stripBlockGo, if_pos hcd, if_pos hc]
          exact stripBlockGo_true_eq rest2 hc
        rw [heq]
        exact stripBlockGo_noSS (afterCloser rest2)
          (hasSS_suffix (afterCloser_suffix rest2) (hasSS_tail hss))
      · obtain ⟨rfl, rfl⟩ := hcd
        have hcf : hasCloserIn rest2 = false := by simpa using hc
        have e1 : stripBlockGo false ('*' :: rest2) = '*' :: stripBlockGo false rest2 :=
          sbGo_false_cons_ne '*' rest2 (by decide)
        have e2 : stripBlockGo false rest2 = rest2 := stripBlockGo_nocloser_id rest2 hcf
        have heq : stripBlockGo false ('/' :: '*' :: rest2) = '/' :: '*' :: rest2 := by
          simp [stripBlockGo, hcf, e1, e2]
        rw [heq]
        exact h
    · have heq : stripBlockGo false (c :: d :: rest2) = c :: stripBlockGo false (d :: rest2) := by
        simp only [stripBlockGo, if_neg hcd]
      rw [heq]
      have h1 := stripBlockGo_noSS (d :: rest2) hss
      show ((decide (c = '/') && decide ((stripBlockGo false (d :: rest2)).head? = some '/'))
          || hasSS (stripBlockGo false (d :: rest2))) = false
      rw [h1, Bool.or_false]
      by_cases hchar : c = '/'
      · have hd : ¬ d = '/' := hasSS_cons_elim h hchar
        rw [sbGo_false_cons_ne d rest2 hd]
        simp [hd]
      · simp [hchar]
termination_by l => l.length
decreasing_by
  · simp only [List.length_cons]
    have := afterCloser_length rest2 hc
    omega
  · simp only [List.length_cons]
    omega

/-- On `//`-free input, the block pass leaves no block comment behind. -/
theorem stripBlockGo_noBlock : ∀ l : Str, hasSS l = false →
    hasBlockCmt (stripBlockGo false l) = false
  | [] => by intro _; simp [stripBlockGo, hasBlockCmt]
  | [c] => by intro _; simp [stripBlockGo, hasBlockCmt, hasCloserIn]
  | c :: d :: rest2 => by
    intro h
    have hss : hasSS (d :: rest2) = false := hasSS_tail h
    by_cases hcd : c = '/' ∧ d = '*'
    · by_cases hc : hasCloserIn rest2
      · have heq : stripBlockGo false (c :: d :: rest2) = stripBlockGo false (afterCloser rest2) := by
          simp only [stripBlockGo, if_pos hcd, if_pos hc]
          exact stripBlockGo_true_eq rest2 hc
        rw [heq]
        exact stripBlockGo_noBlock (afterCloser rest2)
          (hasSS_suffix (afterCloser_suffix rest2) (hasSS_tail hss))
      · obtain ⟨rfl, rfl⟩ := hcd
        have hcf : hasCloserIn rest2 = false := by simpa using hc
        have e1 : stripBlockGo false ('*' :: rest2) = '*' :: stripBlockGo false rest2 :=
          sbGo_false_cons_ne '*' rest2 (by decide)
        have e2 : stripBlockGo false rest2 = rest2 := stripBlockGo_nocloser_id rest2 hcf
        have heq : stripBlockGo false ('/' :: '*' :: rest2) = '/' :: '*' :: rest2 := by
          simp [stripBlockGo, hcf, e1, e2]
        rw [heq, hasBlockCmt_cons2]
        have h2 : hasBlockCmt ('*' :: rest2) = false := by
          cases rest2 with
          | nil => simp [hasBlockCmt, hasCloserIn]
          | cons r rest' =>
            rw [hasBlockCmt_cons2, noCloser_noBlock (r :: rest') hcf]
            simp
        rw [h2, hcf]
        simp
    · have heq : stripBlockGo false (c :: d :: rest2) = c :: stripBlockGo false (d :: rest2) := by
        simp only [stripBlockGo, if_neg hcd]
      rw [heq]
      have h1 := stripBlockGo_noBlock (d :: rest2) hss
      show ((decide (c = '/') && decide ((stripBlockGo false (d :: rest2)).head? = some '*')
          && hasCloserIn (stripBlockGo false (d :: rest2)).tail)
          || hasBlockCmt (stripBlockGo false (d :: rest2))) = false
      rw [h1, Bool.or_false]
      by_cases hchar : c = '/'
      · have hd : ¬ d = '/' := hasSS_cons_elim h hchar
        have hd2 : ¬ d = '*' := fun h' => hcd ⟨hchar, h'⟩
        rw [sbGo_false_cons_ne d rest2 hd]
        simp [hd2]
      · simp [hchar]
termination_by l => l.length
decreasing_by
  · simp only [List.length_cons]
    have := afterCloser_length rest2 hc
    omega
  · simp only [List.length_cons]
    omega

/-- Text with no `//` is a fixed point of the line pass. -/
theorem stripLineGo_id_of_noSS : ∀ l : Str, hasSS l = false → stripLineGo false l = l
  | [] => by intro _; simp [stripLineGo]
  | [c] => by intro _; simp [stripLineGo]
  | c :: d :: rest2 => by
    intro h
    have hcd : ¬ (c = '/' ∧ d = '/') := fun h' => absurd h'.2 (hasSS_cons_elim h h'.1)
    simp only [stripLineGo, if_neg hcd]
    rw [stripLineGo_id_of_noSS (d :: rest2) (hasSS_tail h)]

/-- Text with no block comment is a fixed point of the block pass. -/
theorem stripBlockGo_id_of_noBlock : ∀ l : Str, hasBlockCmt l = false →
    stripBlockGo false l = l
  | [] => by intro _; simp [stripBlockGo]
  | [c] => by intro _; simp [stripBlockGo]
  | c :: d :: rest2 => by
    intro h
    by_cases hcd : c = '/' ∧ d = '*'
    · obtain ⟨rfl, rfl⟩ := hcd
      rw [hasBlockCmt_cons2] at h
      obtain ⟨ha, _⟩ := Bool.or_eq_false_iff.mp h
      have hc : hasCloserIn rest2 = false := by simpa using ha
      have e1 : stripBlockGo false ('*' :: rest2) = '*' :: stripBlockGo false rest2 :=
        sbGo_false_cons_ne '*' rest2 (by decide)
      have e2 : stripBlockGo false rest2 = rest2 := stripBlockGo_nocloser_id rest2 hc
      simp [stripBlockGo, hc, e1, e2]
    · simp only [stripBlockGo, if_neg hcd]
      rw [stripBlockGo_id_of_noBlock (d :: rest2) (hasBlockCmt_tail h)]

/-- C1 counterexample: an unterminated block comment is left in place
(not consumed to end of file) by both normalizers, and `Header.read`
leaves a block comment that spans lines untouched — so the claim's
"every block comment removed, unterminated consumes to end of file"
fails on the code. -/
theorem c1_counterexample :
    normalizeSource "a/*b".data = "a/*b".data ∧
    ¬ normalizeSource "a/*b".data = "a".data ∧
    normalizeHeader "/*x\ny*/z".data = "/*x\ny*/z".data ∧
    ¬ normalizeHeader "/*x\ny*/z".data = "z".data := by
  refine ⟨by decide, by decide, by decide, by decide⟩

/-- C1 amended: both normalizers are total and never lengthen the text;
`Source.read`'s normalizer removes every line comment and every
terminated block comment (no `//` and no `/* ... */` pattern survives);
`Header.read`'s normalizer removes every line comment (its line pass
runs last), while its block pass — crippled by the `re.DOTALL`-as-count
slip — only removes up to 16 single-line block comments; unterminated
block comments are left in place by both. -/
theorem c1_normalizer_properties (l : Str) :
    (normalizeSource l).length ≤ l.length ∧
    (normalizeHeader l).length ≤ l.length ∧
    hasSS (normalizeSource l) = false ∧
    hasBlockCmt (normalizeSource l) = false ∧
    hasSS (normalizeHeader l) = false := by
  refine ⟨?_, ?_, stripBlockGo_noSS _ (stripLineGo_noSS false l),
    stripBlockGo_noBlock _ (stripLineGo_noSS false l), stripLineGo_noSS false _⟩
  · exact (stripBlockGo_length false _).trans (stripLineGo_length false l)
  · exact (stripLineGo_length false _).trans (stripBlockGoCount_length 16 false l)

/-- C9 counterexample: the `Header.read` normalizer is not idempotent —
stripping the block comment of `a //*c*/* d */` splices `/* d */`
together, which only the second pass removes. -/
theorem c9_counterexample :
    normalizeHeader "a //*c*/* d */".data = "a /* d */".data ∧
    normalizeHeader (normalizeHeader "a //*c*/* d */".data) = "a ".data ∧
    ¬ normalizeHeader (normalizeHeader "a //*c*/* d */".data)
        = normalizeHeader "a //*c*/* d */".data := by
  refine ⟨by decide, by decide, by decide⟩

/-- C9 amended: the `Source.read` normalizer is idempotent — its output
contains no `//` and no terminated block comment, so a second
application changes nothing.  (The `Header.read` normalizer is not
idempotent; see the counterexample.) -/
theorem c9_source_normalizer_idempotent (l : Str) :
    normalizeSource (normalizeSource l) = normalizeSource l := by
  have h1 : hasSS (stripLineComments l) = false := stripLineGo_noSS false l
  have h2 : hasSS (normalizeSource l) = false := stripBlockGo_noSS _ h1
  have h3 : hasBlockCmt (normalizeSource l) = false := stripBlockGo_noBlock _ h1
  show stripBlockComments (stripLineComments (normalizeSource l)) = normalizeSource l
  rw [show stripLineComments (normalizeSource l) = normalizeSource l from
    stripLineGo_id_of_noSS _ h2]
  exact stripBlockGo_id_of_noBlock _ h3

theorem dropWhile_head_not (p : Char → Bool) :
    ∀ (l : Str) (c : Char), (l.dropWhile p).head? = some c → p c = false
  | [], c => by simp [List.dropWhile]
  | x :: xs, c => by
    intro h
    by_cases hx : p x
    · rw [List.dropWhile_cons_of_pos hx] at h
      exact dropWhile_head_not p xs c h
    · rw [List.dropWhile_cons_of_neg hx] at h
      simp only [List.head?_cons, Option.some.injEq] at h
      rw [← h]
      simpa using hx

theorem take1While_sound {p : Char → Bool} {l run r : Str}
    (h : take1While p l = some (run, r)) :
    run ≠ [] ∧ (∀ c ∈ run, p c = true) ∧ (∀ c, r.head? = some c → p c = false) ∧
      l = run ++ r := by
  unfold take1While at h
  rcases hw : l.takeWhile p with _ | ⟨x, xs⟩
  · rw [hw] at h
    simp at h
  · rw [hw] at h
    simp only [Option.some.injEq, Prod.mk.injEq] at h
    obtain ⟨h1, h2⟩ := h
    refine ⟨by simp [← h1], ?_, ?_, ?_⟩
    · intro c hc
      rw [← h1] at hc
      rw [← hw] at hc
      exact List.mem_takeWhile_imp hc
    · intro c hc
      rw [← h2] at hc
      exact dropWhile_head_not p l c hc
    · rw [← h1, ← h2, ← hw]
      exact (List.takeWhile_append_dropWhile p l).symm

theorem takeWhile_append_of {p : Char → Bool} :
    ∀ {a b : Str}, (∀ c ∈ a, p c = true) → (∀ c, b.head? = some c → p c = false) →
      (a ++ b).takeWhile p = a ∧ (a ++ b).dropWhile p = b
  | [], b => by
    intro _ hb
    cases b with
    | nil => simp [List.takeWhile, List.dropWhile]
    | cons d b' =>
      have hd : p d = false := hb d (by simp)
      constructor
      · simpa [List.takeWhile_cons] using hd
      · simp [List.dropWhile_cons, hd]
  | x :: a', b => by
    intro ha hb
    have hx : p x = true := ha x (by simp)
    have ih := @takeWhile_append_of p a' b
      (fun c hc => ha c (by simp [hc])) hb
    constructor
    · simp only [List.cons_append, List.takeWhile_cons, hx, if_true]
      rw [ih.1]
    · simp only [List.cons_append, List.dropWhile_cons, hx, if_true]
      exact ih.2

theorem take1While_complete {p : Char → Bool} {a b : Str}
    (hne : a ≠ []) (ha : ∀ c ∈ a, p c = true)
    (hb : ∀ c, b.head? = some c → p c = false) :
    take1While p (a ++ b) = some (a, b) := by
  obtain ⟨h1, h2⟩ := takeWhile_append_of ha hb
  unfold take1While
  rw [h1, h2]
  cases a with
  | nil => exact absurd rfl hne
  | cons x a' => rfl

theorem opener_not_space {c : Char} (h : isOpener c = true) : isSpaceCh c = false := by
  simp only [isOpener, Bool.or_eq_true, decide_eq_true_eq] at h
  rcases h with rfl | rfl <;> decide

theorem fname_not_opener {c : Char} (h : isFname c = true) : isOpener c = false := by
  cases hc : isOpener c
  · rfl
  · exfalso
    simp only [isOpener, Bool.or_eq_true, decide_eq_true_eq] at hc
    rcases hc with rfl | rfl <;> exact absurd h (by decide)

theorem closer_not_fname {c : Char} (h : isCloser c = true) : isFname c = false := by
  cases hc : isFname c
  · rfl
  · exfalso
    simp only [isCloser, Bool.or_eq_true, decide_eq_true_eq] at h
    rcases h with rfl | rfl <;> exact absurd hc (by decide)

theorem isPrefixOf_exists : ∀ {l1 l2 : Str}, l1.isPrefixOf l2 = true → ∃ t, l2 = l1 ++ t
  | [], l2, _ => ⟨l2, rfl⟩
  | c :: r, [], h => by simp [List.isPrefixOf] at h
  | c :: r, d :: l2', h => by
    have h0 : (c == d && r.isPrefixOf l2') = true := h
    simp only [Bool.and_eq_true, beq_iff_eq] at h0
    obtain ⟨rfl, h2⟩ := h0
    obtain ⟨t, rfl⟩ := isPrefixOf_exists h2
    exact ⟨t, rfl⟩

theorem isPrefixOf_append : ∀ (l1 l2 : Str), l1.isPrefixOf (l1 ++ l2) = true
  | [], _ => by simp [List.isPrefixOf]
  | c :: r, l2 => by
    show (c == c && r.isPrefixOf (r ++ l2)) = true
    simp [isPrefixOf_append r l2]

/-- A successful head-match decomposes the text into the directive's
grammar, with every run maximal. -/
theorem tryInclude_sound {l f r : Str} (h : tryInclude l = some (f, r)) :
    ∃ ws os cs,
      ws.length ≤ 1 ∧ (∀ c ∈ ws, isSpaceCh c = true) ∧
      os ≠ [] ∧ (∀ c ∈ os, isOpener c = true) ∧
      f ≠ [] ∧ (∀ c ∈ f, isFname c = true) ∧
      cs ≠ [] ∧ (∀ c ∈ cs, isCloser c = true) ∧
      (∀ c, r.head? = some c → isCloser c = false) ∧
      l = "#include".data ++ ws ++ os ++ f ++ cs ++ r := by
  unfold tryInclude at h
  by_cases hpre : "#include".data.isPrefixOf l
  · rw [if_pos hpre] at h
    obtain ⟨l1, rfl⟩ := isPrefixOf_exists hpre
    have hdrop : ("#include".data ++ l1).drop 8 = l1 := List.drop_left "#include".data l1
    rw [hdrop] at h
    -- split on the optional whitespace
    rcases hl1 : l1 with _ | ⟨c0, rest0⟩
    · rw [hl1] at h
      rw [show take1While isOpener (skipOptSpace []) = none from rfl] at h
      exact absurd h (by simp)
    · rw [hl1] at h
      simp only [skipOptSpace] at h
      by_cases hsp : isSpaceCh c0
      · rw [if_pos hsp] at h
        rcases ho : take1While isOpener rest0 with _ | ⟨⟨os, l3⟩⟩
        · rw [ho] at h
          simp at h
        · rw [ho] at h
          dsimp only at h
          obtain ⟨hosne, hosall, _, hoseq⟩ := take1While_sound ho
          rcases hf : take1While isFname l3 with _ | ⟨⟨f', l4⟩⟩
          · rw [hf] at h
            simp at h
          · rw [hf] at h
            dsimp only at h
            obtain ⟨hfne, hfall, _, hfeq⟩ := take1While_sound hf
            rcases hcs : take1While isCloser l4 with _ | ⟨⟨cs, l5⟩⟩
            · rw [hcs] at h
              simp at h
            · rw [hcs] at h
              dsimp only at h
              obtain ⟨hcsne, hcsall, hcshead, hcseq⟩ := take1While_sound hcs
              simp only [Option.some.injEq, Prod.mk.injEq] at h
              obtain ⟨rfl, rfl⟩ := h
              refine ⟨[c0], os, cs, by simp, by simpa using hsp, hosne, hosall,
                hfne, hfall, hcsne, hcsall, hcshead, ?_⟩
              simp only [List.append_assoc, List.cons_append, List.nil_append]
              rw [← hcseq, ← hfeq, ← hoseq]
      · rw [if_neg hsp] at h
        rcases ho : take1While isOpener (c0 :: rest0) with _ | ⟨⟨os, l3⟩⟩
        · rw [ho] at h
          simp at h
        · rw [ho] at h
          dsimp only at h
          obtain ⟨hosne, hosall, _, hoseq⟩ := take1While_sound ho
          rcases hf : take1While isFname l3 with _ | ⟨⟨f', l4⟩⟩
          · rw [hf] at h
            simp at h
          · rw [hf] at h
            dsimp only at h
            obtain ⟨hfne, hfall, _, hfeq⟩ := take1While_sound hf
            rcases hcs : take1While isCloser l4 with _ | ⟨⟨cs, l5⟩⟩
            · rw [hcs] at h
              simp at h
            · rw [hcs] at h
              dsimp only at h
              obtain ⟨hcsne, hcsall, hcshead, hcseq⟩ := take1While_sound hcs
              simp only [Option.some.injEq, Prod.mk.injEq] at h
              obtain ⟨rfl, rfl⟩ := h
              refine ⟨[], os, cs, by simp, by simp, hosne, hosall,
                hfne, hfall, hcsne, hcsall, hcshead, ?_⟩
              simp only [List.append_assoc, List.nil_append]
              rw [← hcseq, ← hfeq, ← hoseq]
  · rw [if_neg hpre] at h
    exact absurd h (by simp)

/-- A text of the directive shape (with maximal trailing closer run) is
matched at its head, capturing exactly the filename. -/
theorem tryInclude_of_decomp {ws os f cs rest : Str}
    (hws : ws.length ≤ 1) (hwsall : ∀ c ∈ ws, isSpaceCh c = true)
    (hosne : os ≠ []) (hosall : ∀ c ∈ os, isOpener c = true)
    (hfne : f ≠ []) (hfall : ∀ c ∈ f, isFname c = true)
    (hcsne : cs ≠ []) (hcsall : ∀ c ∈ cs, isCloser c = true)
    (hrest : ∀ c, rest.head? = some c → isCloser c = false) :
    tryInclude ("#include".data ++ ws ++ os ++ f ++ cs ++ rest) = some (f, rest) := by
  obtain ⟨o, os', rfl⟩ : ∃ o os', os = o :: os' := by
    cases os with
    | nil => exact absurd rfl hosne
    | cons o os' => exact ⟨o, os', rfl⟩
  obtain ⟨fh, f', rfl⟩ : ∃ fh f', f = fh :: f' := by
    cases f with
    | nil => exact absurd rfl hfne
    | cons fh f' => exact ⟨fh, f', rfl⟩
  obtain ⟨ch, cs', rfl⟩ : ∃ ch cs', cs = ch :: cs' := by
    cases cs with
    | nil => exact absurd rfl hcsne
    | cons ch cs' => exact ⟨ch, cs', rfl⟩
  have ho := @take1While_complete isOpener (o :: os')
    ((fh :: f') ++ ((ch :: cs') ++ rest)) (by simp) hosall ?hbo
  case hbo =>
    intro c hc
    simp only [List.cons_append, List.head?_cons, Option.some.injEq] at hc
    rw [← hc]
    exact fname_not_opener (hfall fh (by simp))
  have hf2 := @take1While_complete isFname (fh :: f')
    ((ch :: cs') ++ rest) (by simp) hfall ?hbf
  case hbf =>
    intro c hc
    simp only [List.cons_append, List.head?_cons, Option.some.injEq] at hc
    rw [← hc]
    exact closer_not_fname (hcsall ch (by simp))
  have hc2 := @take1While_complete isCloser (ch :: cs')
    rest (by simp) hcsall hrest
  simp only [List.cons_append, List.append_assoc] at ho hf2 hc2
  have hdrop : ∀ l2 : Str, ("#include".data ++ l2).drop 8 = l2 := fun l2 =>
    List.drop_left' rfl
  rcases ws with _ | ⟨w, _ | ⟨w2, ws''⟩⟩
  · have hns : isSpaceCh o = false := opener_not_space (hosall o (by simp))
    simp only [List.append_assoc, List.nil_append, List.cons_append]
    have hpre : "#include".data.isPrefixOf
        ("#include".data ++ (o :: (os' ++ (fh :: (f' ++ (ch :: (cs' ++ rest))))))) = true :=
      isPrefixOf_append _ _
    unfold tryInclude
    simp only [List.append_assoc, List.nil_append, List.cons_append] at hpre hdrop
    rw [if_pos hpre]
    rw [hdrop]
    simp only [skipOptSpace]
    rw [if_neg (by simp [hns])]
    rw [ho]
    dsimp only
    rw [hf2]
    dsimp only
    rw [hc2]
  · have hsp : isSpaceCh w = true := hwsall w (by simp)
    simp only [List.append_assoc, List.nil_append, List.cons_append]
    have hpre : "#include".data.isPrefixOf
        ("#include".data ++ (w :: (o :: (os' ++ (fh :: (f' ++ (ch :: (cs' ++ rest)))))))) = true :=
      isPrefixOf_append _ _
    unfold tryInclude
    simp only [List.append_assoc, List.nil_append, List.cons_append] at hpre hdrop
    rw [if_pos hpre]
    rw [hdrop]
    simp only [skipOptSpace]
    rw [if_pos hsp]
    rw [ho]
    dsimp only
    rw [hf2]
    dsimp only
    rw [hc2]
  · simp at hws

theorem CanStart_elim {l : Str} (h : CanStart l) : ∃ f r, tryInclude l = some (f, r) := by
  obtain ⟨ws, os, f, cs, rest, hws, hwsall, hosne, hosall, hfne, hfall, hcsne, hcsall, rfl⟩ := h
  refine ⟨f, rest.dropWhile isCloser, ?_⟩
  have hmax := @tryInclude_of_decomp ws os f
    (cs ++ rest.takeWhile isCloser) (rest.dropWhile isCloser)
    hws hwsall hosne hosall hfne hfall
    (by cases cs with
        | nil => exact absurd rfl hcsne
        | cons a b => simp)
    (by intro c hc
        rcases List.mem_append.mp hc with h' | h'
        · exact hcsall c h'
        · exact List.mem_takeWhile_imp h')
    (fun c hc => dropWhile_head_not isCloser rest c hc)
  rw [show "#include".data ++ ws ++ os ++ f ++ cs ++ rest
      = "#include".data ++ ws ++ os ++ f ++ (cs ++ rest.takeWhile isCloser)
          ++ rest.dropWhile isCloser from by
    simp only [List.append_assoc]
    rw [List.takeWhile_append_dropWhile]]
  exact hmax

theorem tryInclude_consumes {l f r : Str} (h : tryInclude l = some (f, r)) :
    r.length + 11 ≤ l.length := by
  obtain ⟨ws, os, cs, _, _, hosne, _, hfne, _, hcsne, _, _, rfl⟩ := tryInclude_sound h
  have h1 : 1 ≤ os.length := List.length_pos.mpr hosne
  have h2 : 1 ≤ f.length := List.length_pos.mpr hfne
  have h3 : 1 ≤ cs.length := List.length_pos.mpr hcsne
  have h8 : ("#include".data : Str).length = 8 := rfl
  simp only [List.length_append, h8]
  omega

theorem scanIncludesF_nil : ∀ n : Nat, scanIncludesF n [] = []
  | 0 => rfl
  | _ + 1 => rfl

/-- One scanning step, for any nonempty text. -/
theorem scanIncludesF_step (n : Nat) (l : Str) (hne : l ≠ []) :
    scanIncludesF (n + 1) l
      = match tryInclude l with
        | some (f, r) => f :: scanIncludesF n r
        | none => scanIncludesF n l.tail := by
  cases l with
  | nil => exact absurd rfl hne
  | cons c rest => rfl

/-- The scan result does not depend on the fuel, as long as the fuel
covers the text length. -/
theorem scan_fuel : ∀ (k n m : Nat) (l : Str),
    l.length ≤ k → l.length ≤ n → l.length ≤ m → scanIncludesF n l = scanIncludesF m l
  | _, n, m, [] => fun _ _ _ => by rw [scanIncludesF_nil, scanIncludesF_nil]
  | 0, _, _, _ :: _ => fun hk _ _ => by simp at hk
  | k + 1, n, m, c :: rest => fun hk hn hm => by
    simp only [List.length_cons] at hk hn hm
    obtain ⟨n', rfl⟩ : ∃ n'', n = n'' + 1 := ⟨n - 1, by omega⟩
    obtain ⟨m', rfl⟩ : ∃ m'', m = m'' + 1 := ⟨m - 1, by omega⟩
    rw [scanIncludesF_step n' (c :: rest) (by simp),
        scanIncludesF_step m' (c :: rest) (by simp)]
    cases htry : tryInclude (c :: rest) with
    | none =>
      dsimp only [List.tail_cons]
      exact scan_fuel k n' m' rest (by omega) (by omega) (by omega)
    | some pr =>
      obtain ⟨f, r⟩ := pr
      have hlt := tryInclude_consumes htry
      simp only [List.length_cons] at hlt
      dsimp only
      rw [scan_fuel k n' m' r (by omega) (by omega) (by omega)]

/-- Soundness half: a declarative scan derivation computes the scan. -/
theorem scan_of_scanrel {l : Str} {out : List Str} (h : ScanRel l out) :
    ∀ n, l.length ≤ n → scanIncludesF n l = out := by
  induction h with
  | nil => intro n _; exact scanIncludesF_nil n
  | found ws os f cs rest out hws hwsall hosne hosall hfne hfall hcsne hcsall hrest _ ih =>
    intro n hn
    have htry := tryInclude_of_decomp hws hwsall hosne hosall hfne hfall hcsne hcsall hrest
    have hcons := tryInclude_consumes htry
    obtain ⟨n', rfl⟩ : ∃ n'', n = n'' + 1 := ⟨n - 1, by omega⟩
    rw [scanIncludesF_step n' _ (by simp)]
    rw [htry]
    dsimp only
    rw [ih n' (by omega)]
  | skip c rest out hnostart _ ih =>
    intro n hn
    simp only [List.length_cons] at hn
    obtain ⟨n', rfl⟩ : ∃ n'', n = n'' + 1 := ⟨n - 1, by omega⟩
    rw [scanIncludesF_step n' _ (by simp)]
    have htry : tryInclude (c :: rest) = none := by
      cases htry : tryInclude (c :: rest) with
      | none => rfl
      | some pr =>
        obtain ⟨f, r⟩ := pr
        obtain ⟨ws, os, cs, hws, hwsall, hosne, hosall, hfne, hfall, hcsne, hcsall,
          hrhead, heq⟩ := tryInclude_sound htry
        exact absurd ⟨ws, os, f, cs, r, hws, hwsall, hosne, hosall, hfne, hfall,
          hcsne, hcsall, heq⟩ hnostart
    rw [htry]
    dsimp only [List.tail_cons]
    exact ih n' (by omega)

/-- Completeness half: the scan is derivable. -/
theorem scanrel_scan : ∀ (k : Nat) (l : Str), l.length ≤ k → ScanRel l (findIncludes l)
  | _, [] => fun _ => ScanRel.nil
  | 0, _ :: _ => fun hk => by simp at hk
  | k + 1, c :: rest => fun hk => by
    simp only [List.length_cons] at hk
    unfold findIncludes
    rw [show (c :: rest).length = rest.length + 1 from rfl,
        scanIncludesF_step rest.length (c :: rest) (by simp)]
    cases htry : tryInclude (c :: rest) with
    | none =>
      have hnc : ¬ CanStart (c :: rest) := by
        intro hcs
        obtain ⟨f, r, hsome⟩ := CanStart_elim hcs
        rw [htry] at hsome
        exact absurd hsome (by simp)
      dsimp only [List.tail_cons]
      exact ScanRel.skip c rest (findIncludes rest) hnc (scanrel_scan k rest (by omega))
    | some pr =>
      obtain ⟨f, r⟩ := pr
      obtain ⟨ws, os, cs, hws, hwsall, hosne, hosall, hfne, hfall, hcsne, hcsall,
        hrhead, heq⟩ := tryInclude_sound htry
      have hcons := tryInclude_consumes htry
      simp only [List.length_cons] at hcons
      dsimp only
      have hfuel : scanIncludesF rest.length r = findIncludes r :=
        scan_fuel rest.length rest.length r.length r (by omega) (by omega) (by omega)
      rw [hfuel, heq]
      exact ScanRel.found ws os f cs r (findIncludes r) hws hwsall hosne hosall
        hfne hfall hcsne hcsall hrhead (scanrel_scan k r (by omega))

/-- C3 counterexample: a directive whose opening delimiter is `"` but
whose closing delimiter is `>` is matched and its filename captured —
the delimiters are character classes, not a matched pair, so the claim
that mismatched delimiters are not matched fails on the code. -/
theorem c3_counterexample :
    findIncludes "#include \"stdio.h>".data = ["stdio.h".data] ∧
    ¬ findIncludes "#include \"stdio.h>".data = [] := by
  refine ⟨by decide, by decide⟩

/-- C3 amended: the include parser returns exactly the ordered,
duplicate-preserving sequence of filenames of directives of the form
`#include`, at most one whitespace character, one or more characters
from the opener class `"`/`<`, a nonempty filename over letters,
digits, hyphen, underscore and dot, then one or more characters from
the closer class `"`/`>` (the run greedy, and the two delimiter runs
need not match each other) — stated as the equivalence between the scan
and its declarative left-to-right reading `ScanRel`. -/
theorem c3_include_extraction (l : Str) (out : List Str) :
    ScanRel l out ↔ findIncludes l = out := by
  constructor
  · intro h
    exact scan_of_scanrel h l.length le_rfl
  · intro h
    rw [← h]
    exact scanrel_scan l.length l le_rfl
